import Mathlib

/-!
Verification development for the graphql-document-utils schema tools.

The repository computes two closures over a parsed GraphQL schema document:

* `focus` (src/focus.rs): type-level reachability from a list of root type
  names over a directed graph whose edges are built from the document, and
  then a filter of the document retaining only reachable definitions;
* `prune` (src/prune.rs): a field-usage closure driven by a query document,
  producing a map from type name to the set of used field names, and then a
  filter of the document keyed on that map;
* a generic traversal engine (src/util.rs, trait SchemaWalker) with a
  visited set threaded through the walk.

This file gives a shallow embedding of the data model and of those three
algorithms, translated from the Rust source.  Parsing and printing are the
external syntax layer of the tool: documents are modelled as already-parsed
trees, and the output of each operation is the output document (the list of
retained definitions), whose rendering to text is the external printer's job.
The Rust functions recurse without an explicit bound; the embedded versions
take a fuel argument that is decremented on every recursive call, and every
property proved below either holds for all fuel values or is evaluated at a
concrete input with ample fuel.
-/

namespace Gql

/-- Mirrors graphql_parser's `Type`: a base name wrapped in zero or more
list / non-null modifiers. -/
inductive GqlType where
  | namedType (name : String)
  | listType (inner : GqlType)
  | nonNullType (inner : GqlType)
deriving DecidableEq, Repr

/-- Mirrors graphql_parser's `InputValue` (field arguments and input-object
members): only the name and the type are consulted by the closures. -/
structure InputValue where
  name : String
  value_type : GqlType
deriving DecidableEq, Repr

/-- Mirrors graphql_parser's `Field`.  Directives on the field are opaque to
every algorithm in the repository (the walker only visits them with no-op
hooks), so they are omitted from the embedding. -/
structure Field where
  name : String
  field_type : GqlType
  arguments : List InputValue
deriving DecidableEq, Repr

/-- Mirrors graphql_parser's `ObjectType` (name, implements list, fields). -/
structure ObjectType where
  name : String
  implements_interfaces : List String
  fields : List Field
deriving DecidableEq, Repr

/-- Mirrors graphql_parser's `InterfaceType`. -/
structure InterfaceType where
  name : String
  implements_interfaces : List String
  fields : List Field
deriving DecidableEq, Repr

/-- Mirrors graphql_parser's `UnionType` (name and member type names). -/
structure UnionType where
  name : String
  types : List String
deriving DecidableEq, Repr

/-- Mirrors graphql_parser's `EnumType` (name and value names). -/
structure EnumType where
  name : String
  values : List String
deriving DecidableEq, Repr

/-- Mirrors graphql_parser's `InputObjectType`. -/
structure InputObjectType where
  name : String
  fields : List InputValue
deriving DecidableEq, Repr

/-- Mirrors graphql_parser's `ScalarType`. -/
structure ScalarType where
  name : String
deriving DecidableEq, Repr

/-- Mirrors graphql_parser's `TypeDefinition` tagged union. -/
inductive TypeDefinition where
  | scalar (t : ScalarType)
  | object (t : ObjectType)
  | interface (t : InterfaceType)
  | union (t : UnionType)
  | enum (t : EnumType)
  | inputObject (t : InputObjectType)
deriving DecidableEq, Repr

/-- Mirrors graphql_parser's schema `Definition`.  A schema block carries the
optional query / mutation / subscription root type names (the only parts read
by `detect_root_types`).  Type extensions carry a name in the source AST, but
none of the algorithms ever read it; it is kept here to show that the filters
ignore it. -/
inductive Definition where
  | schemaDefinition (query mutation subscription : Option String)
  | typeDefinition (td : TypeDefinition)
  | typeExtension (name : String)
  | directiveDefinition (name : String)
deriving DecidableEq, Repr

/-- Mirrors graphql_parser's schema `Document`: an ordered definition list. -/
structure Document where
  definitions : List Definition
deriving DecidableEq, Repr

/-- src/util.rs `schema_type_definition_name`.  In the source it returns
`Option<&V>` but every arm is `Some`, and all call sites unwrap; the
embedding returns the name directly. -/
def schema_type_definition_name : TypeDefinition → String
  | .scalar t => t.name
  | .object t => t.name
  | .interface t => t.name
  | .union t => t.name
  | .enum t => t.name
  | .inputObject t => t.name

/-- src/util.rs `schema_definition_name`: `None` for schema blocks and type
extensions, the definition's name for type definitions, and — notably — the
directive's name for directive definitions. -/
def schema_definition_name : Definition → Option String
  | .schemaDefinition _ _ _ => none
  | .typeDefinition td => some (schema_type_definition_name td)
  | .typeExtension _ => none
  | .directiveDefinition name => some name

/-- src/util.rs `named_type`: strip list / non-null wrappers down to the base
type name.  The source returns `Option<&V>` but the recursion always ends in
`NamedType`, so the embedding is total. -/
def named_type : GqlType → String
  | .namedType n => n
  | .listType inner => named_type inner
  | .nonNullType inner => named_type inner

/-! ## Focus (src/focus.rs): the reachability closure

`focus::process` builds a petgraph directed graph.  Nodes are created with
`type_node_map.entry(name).or_insert_with(add_node)`, so there is exactly one
node per name; the embedding therefore identifies nodes with names and
records, per definition, which names receive a node and which directed edges
are added.  Note the source adds no node for a `Scalar` definition, and adds
implements-edges only in the direction interface → implementer. -/

/-- Names given a graph node by one definition in `focus::process`'s
construction loop. -/
def focus_def_nodes : Definition → List String
  | .schemaDefinition _ _ _ => []
  | .typeDefinition (.scalar _) => []
  | .typeDefinition (.object o) =>
      o.name :: (o.fields.map (fun f => named_type f.field_type) ++ o.implements_interfaces)
  | .typeDefinition (.interface i) =>
      i.name :: (i.fields.map (fun f => named_type f.field_type) ++ i.implements_interfaces)
  | .typeDefinition (.union u) => u.name :: u.types
  | .typeDefinition (.enum e) => [e.name]
  | .typeDefinition (.inputObject io) =>
      io.name :: io.fields.map (fun f => named_type f.value_type)
  | .typeExtension _ => []
  | .directiveDefinition _ => []

/-- Directed edges added by one definition in `focus::process`: an object or
interface points to each of its fields' base types, an implemented interface
points to the definition that implements it (the reverse edge only), a union
points to each member, and an input object points to its fields' base types.
Enums and scalars add no edges. -/
def focus_def_edges : Definition → List (String × String)
  | .schemaDefinition _ _ _ => []
  | .typeDefinition (.scalar _) => []
  | .typeDefinition (.object o) =>
      o.fields.map (fun f => (o.name, named_type f.field_type)) ++
        o.implements_interfaces.map (fun i => (i, o.name))
  | .typeDefinition (.interface i) =>
      i.fields.map (fun f => (i.name, named_type f.field_type)) ++
        i.implements_interfaces.map (fun j => (j, i.name))
  | .typeDefinition (.union u) => u.types.map (fun t => (u.name, t))
  | .typeDefinition (.enum _) => []
  | .typeDefinition (.inputObject io) =>
      io.fields.map (fun f => (io.name, named_type f.value_type))
  | .typeExtension _ => []
  | .directiveDefinition _ => []

/-- All node names of the focus graph of a document. -/
def focusNodes (doc : Document) : List String :=
  doc.definitions.flatMap focus_def_nodes

/-- All directed edges of the focus graph of a document. -/
def focusEdges (doc : Document) : List (String × String) :=
  doc.definitions.flatMap focus_def_edges

/-- One expansion step of the reachable set: scan every edge and add its
target when its source is already reached.  Additions are guarded by
membership, so no duplicate is ever introduced. -/
def focusStep (es : List (String × String)) (s : List String) : List String :=
  es.foldl (fun acc e => if e.1 ∈ acc ∧ e.2 ∉ acc then e.2 :: acc else acc) s

/-- Iterate `focusStep` a given number of times. -/
def focusIter (es : List (String × String)) : Nat → List String → List String
  | 0, s => s
  | n + 1, s => focusStep es (focusIter es n s)

/-- Enough iterations to reach a fixed point: one more than the number of
distinct names that could ever be in the set. -/
def focusFuel (es : List (String × String)) (s : List String) : Nat :=
  ((s ++ es.map Prod.snd).dedup).length + 1

/-- The reachable set computed by iterating to the fixed point.  This is the
set of names the union of the per-root petgraph depth-first searches visits:
graph search order affects only traversal order, membership is the same. -/
def focusClosure (es : List (String × String)) (s : List String) : List String :=
  focusIter es (focusFuel es s) s

/-- The set of used names in `focus::process`: the union over all roots found
in the node map of everything reachable from them. -/
def focusUsed (doc : Document) (roots : List String) : List String :=
  focusClosure (focusEdges doc)
    ((roots.filter (fun r => decide (r ∈ focusNodes doc))).dedup)

/-- src/focus.rs `strip_unused_types`: retain exactly the definitions whose
`schema_definition_name` is a member of the used set, in document order. -/
def strip_unused_types (doc : Document) (used : List String) : List Definition :=
  doc.definitions.filter
    (fun d => ((schema_definition_name d).map (fun n => decide (n ∈ used))).getD false)

/-- src/focus.rs `process`: build the graph, search from every root found in
the node map, and if the union is empty return the explicitly empty output,
otherwise the filtered document. -/
def focusProcess (doc : Document) (roots : List String) : List Definition :=
  let used := focusUsed doc roots
  if used.isEmpty then [] else strip_unused_types doc used

/-! ## Prune (src/prune.rs): the field-usage closure

The query document is modelled with the parts of graphql_parser's query AST
that `prune::process` reads: operations (with their selection sets) and
fragment definitions (name, type condition, selection set). -/

/-- Mirrors graphql_parser's query `Selection`: a field selection (the code
reads its name and its sub-selection set), a fragment spread (name only), or
an inline fragment with an optional type condition. -/
inductive QSelection where
  | field (name : String) (selection_set : List QSelection)
  | fragmentSpread (fragment_name : String)
  | inlineFragment (type_condition : Option String) (selection_set : List QSelection)

/-- Mirrors graphql_parser's `OperationDefinition`: the four operation forms,
each reduced to the selection set the code walks. -/
inductive OperationDefinition where
  | query (selection_set : List QSelection)
  | mutation (selection_set : List QSelection)
  | subscription (selection_set : List QSelection)
  | selectionSet (selection_set : List QSelection)

/-- Mirrors graphql_parser's `FragmentDefinition`: name, the `on Type`
condition, and the selection set. -/
structure FragmentDefinition where
  name : String
  type_condition : String
  selection_set : List QSelection

/-- Mirrors graphql_parser's query `Definition`. -/
inductive QueryDef where
  | operation (op : OperationDefinition)
  | fragment (f : FragmentDefinition)

/-- Mirrors graphql_parser's query `Document`. -/
structure QueryDoc where
  definitions : List QueryDef

/-- The `type_map` built at the top of `prune::process`: collecting
name → definition pairs into a HashMap makes a later definition with a
duplicate name shadow earlier ones, hence the lookup on the reversed list. -/
def typeMap (doc : Document) (n : String) : Option TypeDefinition :=
  (doc.definitions.filterMap
    (fun d => match d with
      | .typeDefinition td => some td
      | _ => none)).reverse.find? (fun td => schema_type_definition_name td == n)

/-- The `fragments` map of `prune::process` (last-write-wins, like
`typeMap`). -/
def fragMap (qdoc : QueryDoc) (n : String) : Option FragmentDefinition :=
  (qdoc.definitions.filterMap
    (fun d => match d with
      | .fragment f => some f
      | _ => none)).reverse.find? (fun f => f.name == n)

/-- src/prune.rs `type_fields`: the declared field list of an object or
interface, nothing for the other kinds. -/
def type_fields : TypeDefinition → Option (List Field)
  | .object o => some o.fields
  | .interface i => some i.fields
  | _ => none

/-- src/prune.rs `RootTypes`. -/
structure RootTypes where
  query : String
  mutation : Option String
  subscription : Option String
deriving DecidableEq, Repr

/-- src/prune.rs `detect_root_types`: start from query = "Query" and let
every schema block in document order overwrite whichever of the three root
names it sets. -/
def detect_root_types (doc : Document) : RootTypes :=
  doc.definitions.foldl
    (fun rt d => match d with
      | .schemaDefinition q m s =>
          { query := q.getD rt.query
            mutation := match m with | some x => some x | none => rt.mutation
            subscription := match s with | some x => some x | none => rt.subscription }
      | _ => rt)
    { query := "Query", mutation := none, subscription := none }

/-- The `used_fields: HashMap<String, HashSet<String>>` of `prune::process`,
modelled as a function from type name to the optional set (as a list) of
recorded field names. -/
def UsedFields : Type := String → Option (List String)

/-- HashMap::insert of a fresh empty set: replaces whatever was there. -/
def ufInsertEmpty (uf : UsedFields) (k : String) : UsedFields :=
  fun n => if n = k then some [] else uf n

/-- Write the full set stored for a key (the net effect of mutating the set
obtained from `entry(k).or_default()`). -/
def ufSet (uf : UsedFields) (k : String) (s : List String) : UsedFields :=
  fun n => if n = k then some s else uf n

/-- Read a key's set, defaulting to the empty set as `entry(k).or_default()`
does. -/
def ufGet (uf : UsedFields) (k : String) : List String :=
  (uf k).getD []

/-- src/prune.rs `collect_input_types`, fused with the `for arg in
&schema_field.arguments` loop that drives it: for each input value in the
list, take its base type name; if the name is newly inserted into the set and
names an InputObject definition, recurse over that InputObject's fields.
The set being filled is the caller's `used_types` — the *field-name* set of
the parent type in `used_fields`. -/
def collect_input_types (fuel : Nat) (tm : String → Option TypeDefinition) :
    List InputValue → List String → List String :=
  fun args s =>
    match fuel with
    | 0 => s
    | f + 1 =>
      match args with
      | [] => s
      | arg :: rest =>
        let inner := named_type arg.value_type
        let s1 :=
          if inner ∈ s then s
          else
            match tm inner with
            | some (.inputObject io) => collect_input_types f tm io.fields (inner :: s)
            | _ => inner :: s
        collect_input_types f tm rest s1

/-- src/prune.rs `collect_used_fields`.  If the parent type has no definition
the whole selection set contributes nothing.  Otherwise each selection is
processed in order: a field selection matching a declared field of the parent
records the field name in the parent's set, folds the declared arguments
through `collect_input_types` into that same set, and recurses into the
sub-selections at the field's base return type; a fragment spread that
resolves re-inserts an empty set at the fragment's type condition and
recurses there; an inline fragment does the same at its type condition (or
the parent when it has none).  The parent lookup is re-done at each list step
here; it is pure, so this matches the source's single lookup per call.  Fuel
is consumed at every step (also from one selection to the next) so that the
recursion is structural; any fuel at least the total number of selections
reachable through fragment expansion behaves like the unbounded source. -/
def collect_used_fields (fuel : Nat) (parent : String)
    (ss : List QSelection) (tm : String → Option TypeDefinition)
    (uf : UsedFields) (fm : String → Option FragmentDefinition) : UsedFields :=
  match fuel with
  | 0 => uf
  | f + 1 =>
    match tm parent with
    | none => uf
    | some parentDef =>
      match ss with
      | [] => uf
      | sel :: rest =>
        let uf1 :=
          match sel with
          | .field name subsel =>
            match (type_fields parentDef).bind
                (fun fs => fs.find? (fun fld => fld.name == name)) with
            | some schemaField =>
              let set1 := (ufGet uf parent).insert name
              let set2 := collect_input_types f tm schemaField.arguments set1
              collect_used_fields f (named_type schemaField.field_type) subsel tm
                (ufSet uf parent set2) fm
            | none => uf
          | .fragmentSpread fname =>
            match fm fname with
            | some frag =>
              collect_used_fields f frag.type_condition frag.selection_set tm
                (ufInsertEmpty uf frag.type_condition) fm
            | none => uf
          | .inlineFragment tc subsel =>
            let tn := tc.getD parent
            collect_used_fields f tn subsel tm (ufInsertEmpty uf tn) fm
        collect_used_fields f parent rest tm uf1 fm

/-- The root type an operation's walk starts from in `prune::process`. -/
def operationRoot (rt : RootTypes) : OperationDefinition → String
  | .query _ => rt.query
  | .mutation _ => rt.mutation.getD "Mutation"
  | .subscription _ => rt.subscription.getD "Subscription"
  | .selectionSet _ => rt.query

/-- The selection set of an operation. -/
def operationSelections : OperationDefinition → List QSelection
  | .query ss => ss
  | .mutation ss => ss
  | .subscription ss => ss
  | .selectionSet ss => ss

/-- One step of the operation loop of `prune::process`: an operation inserts
a fresh empty set at its root type (replacing any previous entry) and then
collects from its selection set; a fragment definition leaves the map
untouched. -/
def prune_op_step (fuel : Nat) (tm : String → Option TypeDefinition)
    (fm : String → Option FragmentDefinition) (rt : RootTypes)
    (uf : UsedFields) : QueryDef → UsedFields
  | .operation op =>
      collect_used_fields fuel (operationRoot rt op) (operationSelections op) tm
        (ufInsertEmpty uf (operationRoot rt op)) fm
  | .fragment _ => uf

/-- The used-fields map after the operation loop of `prune::process`. -/
def pruneUsedFields (fuel : Nat) (doc : Document) (qdoc : QueryDoc) : UsedFields :=
  qdoc.definitions.foldl
    (prune_op_step fuel (typeMap doc) (fragMap qdoc) (detect_root_types doc))
    (fun _ => none)

/-- The retention test for one field of an object in the output filter of
`prune::process`: kept when recorded against the object itself or against any
interface the object implements. -/
def keepObjectField (uf : UsedFields) (o : ObjectType) (f : Field) : Bool :=
  ((uf o.name).map (fun s => s.contains f.name)).getD false ||
    o.implements_interfaces.any
      (fun i => ((uf i).map (fun s => s.contains f.name)).getD false)

/-- The output filter of `prune::process`: objects are retained when their
name, or an interface they implement, is a key of the map (fields filtered by
`keepObjectField`); interfaces are retained when their name is a key (fields
filtered by their own set only); every other type definition is retained
wholesale exactly when its name is a key; schema blocks, directive
definitions and type extensions always pass through unchanged. -/
def pruneDefs (doc : Document) (uf : UsedFields) : List Definition :=
  doc.definitions.filterMap
    (fun d => match d with
      | .typeDefinition td =>
        match td with
        | .object o =>
          if (uf o.name).isSome ||
              o.implements_interfaces.any (fun i => (uf i).isSome) then
            let kept := o.fields.filter (keepObjectField uf o)
            some (.typeDefinition (.object { o with fields := kept }))
          else none
        | .interface i =>
          if (uf i.name).isSome then
            let kept := i.fields.filter
              (fun f => ((uf i.name).map (fun s => s.contains f.name)).getD false)
            some (.typeDefinition (.interface { i with fields := kept }))
          else none
        | _ =>
          if (uf (schema_type_definition_name td)).isSome then
            some (.typeDefinition td)
          else none
      | other => some other)

/-- src/prune.rs `process`: compute the used-fields map from the query
document, then filter the schema document. -/
def pruneProcess (fuel : Nat) (doc : Document) (qdoc : QueryDoc) : List Definition :=
  pruneDefs doc (pruneUsedFields fuel doc qdoc)

/-! ## The traversal engine (src/util.rs, trait SchemaWalker)

`walk_schema` builds a name → definition map (the same HashMap construction
as prune's `type_map`, so `typeMap` is reused) and an
interface → implementers map from the document's objects, then walks every
definition with a shared `visited` set.  The visit and select hooks default
to no-ops / select-all and touch no state, so the embedding records only what
the engine itself does to the visited set: insertions, the removal performed
by `walk_type_by_name` on its way out, and the points where a definition's
children are actually descended into after a successful terminal marking.
Path arguments never influence the visited set and are omitted. -/

/-- Events observed during a walk: a successful insertion into the visited
set, the removal at the end of `walk_type_by_name`, and the descent into an
Object / InputObject / Enum definition's children after its terminal
marking succeeded. -/
inductive WEvent where
  | ins (n : String)
  | rem (n : String)
  | descend (n : String)
deriving DecidableEq, Repr

/-- The `interface_map` of `walk_schema`: for each interface name, the names
of the object definitions that list it in `implements` (a HashSet in the
source; deduplicated document order here — only membership and iteration are
ever used). -/
def interface_implementers (doc : Document) (i : String) : List String :=
  (doc.definitions.filterMap
    (fun d => match d with
      | .typeDefinition (.object o) =>
        if i ∈ o.implements_interfaces then some o.name else none
      | _ => none)).dedup

mutual

/-- src/util.rs `walk_type_definition`: Object / InputObject / Enum insert
their name into `visited` and return at once when the insert fails;
interfaces have no such guard (the source comments it out) and walk their
fields and then, through the interface map, their implementers; unions walk
their members; scalars do nothing.  The visit hooks on fields, arguments,
directives and implemented interfaces are state-free defaults and are not
modelled. -/
def walk_type_definition (fuel : Nat) (tm : String → Option TypeDefinition)
    (im : String → List String) (ty : TypeDefinition) (visited : List String) :
    List String × List WEvent :=
  match fuel with
  | 0 => (visited, [])
  | f + 1 =>
    match ty with
    | .object o =>
      if o.name ∈ visited then (visited, [])
      else
        let r := walk_field_list f tm im o.fields (o.name :: visited)
        (r.1, .ins o.name :: .descend o.name :: r.2)
    | .inputObject io =>
      if io.name ∈ visited then (visited, [])
      else
        let r := walk_input_list f tm im io.fields (io.name :: visited)
        (r.1, .ins io.name :: .descend io.name :: r.2)
    | .interface i =>
      let r1 := walk_field_list f tm im i.fields visited
      let r2 := walk_name_list f tm im (im i.name) r1.1
      (r2.1, r1.2 ++ r2.2)
    | .enum e =>
      if e.name ∈ visited then (visited, [])
      else (e.name :: visited, [.ins e.name, .descend e.name])
    | .union u => walk_name_list f tm im u.types visited
    | .scalar _ => (visited, [])

/-- The field loop of `walk_type_definition` for objects and interfaces:
each field's base return type is walked by name. -/
def walk_field_list (fuel : Nat) (tm : String → Option TypeDefinition)
    (im : String → List String) (fields : List Field) (visited : List String) :
    List String × List WEvent :=
  match fuel with
  | 0 => (visited, [])
  | f + 1 =>
    match fields with
    | [] => (visited, [])
    | fld :: rest =>
      let r1 := walk_type_by_name f tm im (named_type fld.field_type) visited
      let r2 := walk_field_list f tm im rest r1.1
      (r2.1, r1.2 ++ r2.2)

/-- The field loop of `walk_type_definition` for input objects. -/
def walk_input_list (fuel : Nat) (tm : String → Option TypeDefinition)
    (im : String → List String) (fields : List InputValue) (visited : List String) :
    List String × List WEvent :=
  match fuel with
  | 0 => (visited, [])
  | f + 1 =>
    match fields with
    | [] => (visited, [])
    | fld :: rest =>
      let r1 := walk_type_by_name f tm im (named_type fld.value_type) visited
      let r2 := walk_input_list f tm im rest r1.1
      (r2.1, r1.2 ++ r2.2)

/-- The loops over an interface's implementer set and a union's members. -/
def walk_name_list (fuel : Nat) (tm : String → Option TypeDefinition)
    (im : String → List String) (names : List String) (visited : List String) :
    List String × List WEvent :=
  match fuel with
  | 0 => (visited, [])
  | f + 1 =>
    match names with
    | [] => (visited, [])
    | n :: rest =>
      let r1 := walk_type_by_name f tm im n visited
      let r2 := walk_name_list f tm im rest r1.1
      (r2.1, r1.2 ++ r2.2)

/-- src/util.rs `walk_type_by_name`: insert the name (returning at once when
it is already present), walk the definition found in the type map if any, and
then — the path-stack behaviour at the heart of claim C6 — remove the name
from the visited set before returning. -/
def walk_type_by_name (fuel : Nat) (tm : String → Option TypeDefinition)
    (im : String → List String) (name : String) (visited : List String) :
    List String × List WEvent :=
  match fuel with
  | 0 => (visited, [])
  | f + 1 =>
    if name ∈ visited then (visited, [])
    else
      let r :=
        match tm name with
        | some ty => walk_type_definition f tm im ty (name :: visited)
        | none => (name :: visited, ([] : List WEvent))
      (r.1.erase name, .ins name :: r.2 ++ [.rem name])

end

/-- One step of `walk_schema`'s definition loop (`walk_definition`): a type
definition is walked against the shared visited set; schema blocks, directive
definitions and type extensions reach only state-free visit hooks. -/
def walk_schema_step (fuel : Nat) (tm : String → Option TypeDefinition)
    (im : String → List String) (acc : List String × List WEvent) :
    Definition → List String × List WEvent
  | .typeDefinition ty =>
      let r := walk_type_definition fuel tm im ty acc.1
      (r.1, acc.2 ++ r.2)
  | _ => acc

/-- src/util.rs `walk_schema`: build the maps (the name → definition map is
the same HashMap construction as prune's `type_map`), then walk every
definition of the document in order with one shared visited set. -/
def walk_schema (fuel : Nat) (doc : Document) : List String × List WEvent :=
  doc.definitions.foldl
    (walk_schema_step fuel (typeMap doc) (interface_implementers doc))
    ([], [])

/-- The names carried by the descend events of a trace. -/
def descendsOf (tr : List WEvent) : List String :=
  tr.filterMap (fun e => match e with | .descend n => some n | _ => none)

/-! ## Properties of the reachability iteration -/

/-- Graph reachability from a start set along the focus edges: the
specification the iterated expansion is proved to compute. -/
inductive Reach (es : List (String × String)) (s : List String) : String → Prop where
  | base {x : String} : x ∈ s → Reach es s x
  | step {a b : String} : Reach es s a → (a, b) ∈ es → Reach es s b

theorem focusStep_cons (e : String × String) (rest : List (String × String))
    (s : List String) :
    focusStep (e :: rest) s =
      focusStep rest (if e.1 ∈ s ∧ e.2 ∉ s then e.2 :: s else s) := rfl

theorem focusStep_subset (es : List (String × String)) (s : List String) :
    s ⊆ focusStep es s := by
  induction es generalizing s with
  | nil => exact fun x hx => hx
  | cons e rest ih =>
    intro x hx
    rw [focusStep_cons]
    refine ih _ ?_
    split
    · exact List.mem_cons_of_mem _ hx
    · exact hx

theorem focusStep_structure (es : List (String × String)) (s : List String) :
    ∃ t, focusStep es s = t ++ s := by
  induction es generalizing s with
  | nil => exact ⟨[], rfl⟩
  | cons e rest ih =>
    rw [focusStep_cons]
    by_cases h : e.1 ∈ s ∧ e.2 ∉ s
    · rw [if_pos h]
      obtain ⟨t, ht⟩ := ih (e.2 :: s)
      exact ⟨t ++ [e.2], by rw [ht]; simp⟩
    · rw [if_neg h]; exact ih s

theorem focusStep_grow (es : List (String × String)) (s : List String)
    (h : focusStep es s ≠ s) : s.length < (focusStep es s).length := by
  obtain ⟨t, ht⟩ := focusStep_structure es s
  rcases t with _ | ⟨a, t⟩
  · simp at ht; exact absurd ht h
  · rw [ht]; simp; omega

theorem focusStep_nodup (es : List (String × String)) (s : List String)
    (h : s.Nodup) : (focusStep es s).Nodup := by
  induction es generalizing s with
  | nil => exact h
  | cons e rest ih =>
    rw [focusStep_cons]
    refine ih _ ?_
    split
    · rename_i hc; exact List.nodup_cons.mpr ⟨hc.2, h⟩
    · exact h

theorem focusStep_mem_kinds (es : List (String × String)) (s : List String) :
    ∀ x ∈ focusStep es s, x ∈ s ∨ x ∈ es.map Prod.snd := by
  induction es generalizing s with
  | nil => exact fun x hx => Or.inl hx
  | cons e rest ih =>
    intro x hx
    rw [focusStep_cons] at hx
    rcases ih _ x hx with h1 | h1
    · by_cases hc : e.1 ∈ s ∧ e.2 ∉ s
      · rw [if_pos hc] at h1
        rcases List.mem_cons.mp h1 with h2 | h2
        · right; rw [List.map_cons]; exact h2 ▸ List.mem_cons_self _ _
        · exact Or.inl h2
      · rw [if_neg hc] at h1; exact Or.inl h1
    · right; rw [List.map_cons]; exact List.mem_cons_of_mem _ h1

theorem focusStep_mem_of_edge (es : List (String × String)) (s : List String)
    {a b : String} (he : (a, b) ∈ es) (ha : a ∈ s) : b ∈ focusStep es s := by
  induction es generalizing s with
  | nil => simp at he
  | cons e rest ih =>
    rw [focusStep_cons]
    rcases List.mem_cons.mp he with h1 | h1
    · by_cases hb : b ∈ s
      · refine focusStep_subset rest _ ?_
        split
        · exact List.mem_cons_of_mem _ hb
        · exact hb
      · have hc : e.1 ∈ s ∧ e.2 ∉ s := by rw [← h1]; exact ⟨ha, hb⟩
        rw [if_pos hc]
        refine focusStep_subset rest _ ?_
        have hb2 : e.2 = b := by rw [← h1]
        rw [hb2]
        exact List.mem_cons_self _ _
    · have ha1 : a ∈ (if e.1 ∈ s ∧ e.2 ∉ s then e.2 :: s else s) := by
        split
        · exact List.mem_cons_of_mem _ ha
        · exact ha
      exact ih _ h1 ha1

theorem focusStep_sound (esAll : List (String × String)) (s0 : List String) :
    ∀ (es : List (String × String)) (s : List String), es ⊆ esAll →
      (∀ y ∈ s, Reach esAll s0 y) → ∀ x ∈ focusStep es s, Reach esAll s0 x := by
  intro es
  induction es with
  | nil => exact fun s _ hs x hx => hs x hx
  | cons e rest ih =>
    intro s hsub hs x hx
    rw [focusStep_cons] at hx
    refine ih _ (fun y hy => hsub (List.mem_cons_of_mem _ hy)) ?_ x hx
    intro y hy
    by_cases hc : e.1 ∈ s ∧ e.2 ∉ s
    · rw [if_pos hc] at hy
      rcases List.mem_cons.mp hy with h2 | h2
      · subst h2
        refine Reach.step (hs e.1 hc.1) ?_
        have := hsub (List.mem_cons_self e rest)
        simpa using this
      · exact hs y h2
    · rw [if_neg hc] at hy; exact hs y hy

theorem focusIter_subset (es : List (String × String)) (n : Nat) (s : List String) :
    s ⊆ focusIter es n s := by
  induction n with
  | zero => exact fun x hx => hx
  | succ n ih => exact fun x hx => focusStep_subset es _ (ih hx)

theorem focusIter_nodup (es : List (String × String)) (n : Nat) (s : List String)
    (h : s.Nodup) : (focusIter es n s).Nodup := by
  induction n with
  | zero => exact h
  | succ n ih => exact focusStep_nodup es _ ih

theorem focusIter_mem_kinds (es : List (String × String)) (n : Nat) (s : List String) :
    ∀ x ∈ focusIter es n s, x ∈ s ∨ x ∈ es.map Prod.snd := by
  induction n with
  | zero => exact fun x hx => Or.inl hx
  | succ n ih =>
    intro x hx
    rcases focusStep_mem_kinds es _ x hx with h | h
    · exact ih x h
    · exact Or.inr h

theorem focusIter_sound (es : List (String × String)) (n : Nat) (s : List String) :
    ∀ x ∈ focusIter es n s, Reach es s x := by
  induction n with
  | zero => exact fun x hx => Reach.base hx
  | succ n ih =>
    intro x hx
    exact focusStep_sound es s es _ (fun y hy => hy) ih x hx

theorem focusIter_fixed (es : List (String × String)) (k : Nat) (s : List String)
    (h : focusStep es (focusIter es k s) = focusIter es k s) :
    ∀ j, focusIter es (k + j) s = focusIter es k s := by
  intro j
  induction j with
  | zero => rfl
  | succ j ih =>
    rw [Nat.add_succ]
    show focusStep es (focusIter es (k + j) s) = focusIter es k s
    rw [ih, h]

theorem focusIter_length_of_unfixed (es : List (String × String)) (s : List String) :
    ∀ k, focusStep es (focusIter es k s) ≠ focusIter es k s →
      s.length + k ≤ (focusIter es k s).length := by
  intro k
  induction k with
  | zero => intro _; simp [focusIter]
  | succ k ih =>
    intro hk
    have hkk : focusStep es (focusIter es k s) ≠ focusIter es k s := by
      intro hfix
      have h1 := focusIter_fixed es k s hfix 1
      exact hk (by rw [show k + 1 = k + 1 from rfl] at h1 ⊢; rw [h1, hfix])
    have h2 := ih hkk
    have h3 := focusStep_grow es (focusIter es k s) hkk
    have h4 : (focusIter es (k + 1) s).length =
        (focusStep es (focusIter es k s)).length := rfl
    omega

theorem nodup_subset_length {l m : List String} (hn : l.Nodup) (hs : l ⊆ m) :
    l.length ≤ m.dedup.length := by
  have h1 : l.toFinset.card = l.length := List.toFinset_card_of_nodup hn
  have h2 : l.toFinset ⊆ m.toFinset := by
    intro x hx
    simp only [List.mem_toFinset] at hx ⊢
    exact hs hx
  have h3 : m.toFinset.card = m.dedup.length := List.card_toFinset m
  have := Finset.card_le_card h2
  omega

theorem focusClosure_fix (es : List (String × String)) (s : List String)
    (hs : s.Nodup) : focusStep es (focusClosure es s) = focusClosure es s := by
  by_contra hfix
  have hfix2 : focusStep es (focusIter es (focusFuel es s) s) ≠
      focusIter es (focusFuel es s) s := hfix
  have h1 := focusIter_length_of_unfixed es s (focusFuel es s) hfix2
  have h2 : (focusIter es (focusFuel es s) s).Nodup := focusIter_nodup es _ s hs
  have h3 : focusIter es (focusFuel es s) s ⊆ s ++ es.map Prod.snd := by
    intro x hx
    rcases focusIter_mem_kinds es _ s x hx with h | h <;> simp [h]
  have h4 := nodup_subset_length h2 h3
  have h5 : focusFuel es s = ((s ++ es.map Prod.snd).dedup).length + 1 := rfl
  omega

theorem focusClosure_closed (es : List (String × String)) (s : List String)
    (hs : s.Nodup) {a b : String} (he : (a, b) ∈ es)
    (ha : a ∈ focusClosure es s) : b ∈ focusClosure es s := by
  rw [← focusClosure_fix es s hs]
  exact focusStep_mem_of_edge es _ he ha

theorem focusClosure_sound (es : List (String × String)) (s : List String) :
    ∀ x ∈ focusClosure es s, Reach es s x :=
  focusIter_sound es _ s

theorem focusClosure_complete (es : List (String × String)) (s : List String)
    (hs : s.Nodup) {x : String} (h : Reach es s x) : x ∈ focusClosure es s := by
  induction h with
  | base hx => exact focusIter_subset es _ s hx
  | step _ he ih => exact focusClosure_closed es s hs he ih

theorem mem_focusClosure_iff (es : List (String × String)) (s : List String)
    (hs : s.Nodup) (x : String) : x ∈ focusClosure es s ↔ Reach es s x :=
  ⟨focusClosure_sound es s x, focusClosure_complete es s hs⟩

theorem reach_congr (es : List (String × String)) {s1 s2 : List String}
    (h : ∀ y, y ∈ s1 ↔ y ∈ s2) {x : String} (hr : Reach es s1 x) : Reach es s2 x := by
  induction hr with
  | base hx => exact Reach.base ((h _).mp hx)
  | step _ he ih => exact Reach.step ih he

/-! ## Properties of the focus operation -/

/-- The start set `focus::process` expands from: the root names that have a
graph node, deduplicated. -/
def focusInit (doc : Document) (roots : List String) : List String :=
  (roots.filter (fun r => decide (r ∈ focusNodes doc))).dedup

theorem focusUsed_eq (doc : Document) (roots : List String) :
    focusUsed doc roots = focusClosure (focusEdges doc) (focusInit doc roots) := rfl

theorem focusUsed_closed (doc : Document) (roots : List String) {a b : String}
    (he : (a, b) ∈ focusEdges doc) (ha : a ∈ focusUsed doc roots) :
    b ∈ focusUsed doc roots :=
  focusClosure_closed _ _ (List.nodup_dedup _) he ha

theorem mem_focusEdges_of_def {doc : Document} {d : Definition}
    (hd : d ∈ doc.definitions) {e : String × String}
    (he : e ∈ focus_def_edges d) : e ∈ focusEdges doc :=
  List.mem_flatMap.mpr ⟨d, hd, he⟩

theorem mem_strip_iff (doc : Document) (used : List String) (d : Definition) :
    d ∈ strip_unused_types doc used ↔
      d ∈ doc.definitions ∧ ∃ n, schema_definition_name d = some n ∧ n ∈ used := by
  unfold strip_unused_types
  rw [List.mem_filter]
  constructor
  · rintro ⟨h1, h2⟩
    refine ⟨h1, ?_⟩
    cases hn : schema_definition_name d with
    | none => rw [hn] at h2; simp at h2
    | some n =>
      rw [hn] at h2
      simp only [Option.map_some', Option.getD_some, decide_eq_true_eq] at h2
      exact ⟨n, rfl, h2⟩
  · rintro ⟨h1, n, hn, hmem⟩
    refine ⟨h1, ?_⟩
    rw [hn]
    simpa using hmem

theorem mem_of_mem_focusProcess {doc : Document} {roots : List String}
    {d : Definition} (h : d ∈ focusProcess doc roots) :
    d ∈ strip_unused_types doc (focusUsed doc roots) := by
  unfold focusProcess at h
  simp only at h
  split at h
  · simp at h
  · exact h

theorem mem_focusProcess_of {doc : Document} {roots : List String}
    {d : Definition} {n : String} (hd : d ∈ doc.definitions)
    (hn : schema_definition_name d = some n) (hu : n ∈ focusUsed doc roots) :
    d ∈ focusProcess doc roots := by
  unfold focusProcess
  rw [if_neg]
  · exact (mem_strip_iff doc _ d).mpr ⟨hd, n, hn, hu⟩
  · simp only [List.isEmpty_iff]
    intro hempty
    rw [hempty] at hu
    simp at hu

/-- The type names one definition refers to through its fields' base return
types, its union membership list, or its input fields — the outgoing focus
edges that are not implements edges. -/
def defTypeRefs : Definition → List String
  | .typeDefinition (.object o) => o.fields.map (fun f => named_type f.field_type)
  | .typeDefinition (.interface i) => i.fields.map (fun f => named_type f.field_type)
  | .typeDefinition (.union u) => u.types
  | .typeDefinition (.inputObject io) => io.fields.map (fun f => named_type f.value_type)
  | _ => []

/-- Everything claim C1 counts as referenced by a retained definition in the
reachability closure, restricted to the edge directions the code builds:
field return types, union members, input fields, and — for an interface —
the names of the objects in the document that implement it. -/
def focusRefsOf (doc : Document) : Definition → List String
  | .typeDefinition (.interface i) =>
      defTypeRefs (.typeDefinition (.interface i)) ++ interface_implementers doc i.name
  | d => defTypeRefs d

theorem defTypeRefs_edge {d : Definition} {t : String} (ht : t ∈ defTypeRefs d) :
    ∃ n, schema_definition_name d = some n ∧ (n, t) ∈ focus_def_edges d := by
  match d with
  | .schemaDefinition q m s => simp [defTypeRefs] at ht
  | .typeExtension nm => simp [defTypeRefs] at ht
  | .directiveDefinition nm => simp [defTypeRefs] at ht
  | .typeDefinition (.scalar sc) => simp [defTypeRefs] at ht
  | .typeDefinition (.enum e) => simp [defTypeRefs] at ht
  | .typeDefinition (.object o) =>
    refine ⟨o.name, rfl, ?_⟩
    simp only [defTypeRefs, List.mem_map] at ht
    obtain ⟨f, hf, hft⟩ := ht
    simp only [focus_def_edges, List.mem_append, List.mem_map]
    exact Or.inl ⟨f, hf, by rw [hft]⟩
  | .typeDefinition (.interface i) =>
    refine ⟨i.name, rfl, ?_⟩
    simp only [defTypeRefs, List.mem_map] at ht
    obtain ⟨f, hf, hft⟩ := ht
    simp only [focus_def_edges, List.mem_append, List.mem_map]
    exact Or.inl ⟨f, hf, by rw [hft]⟩
  | .typeDefinition (.union u) =>
    refine ⟨u.name, rfl, ?_⟩
    simp only [focus_def_edges, List.mem_map]
    exact ⟨t, ht, rfl⟩
  | .typeDefinition (.inputObject io) =>
    refine ⟨io.name, rfl, ?_⟩
    simp only [defTypeRefs, List.mem_map] at ht
    obtain ⟨f, hf, hft⟩ := ht
    simp only [focus_def_edges, List.mem_map]
    exact ⟨f, hf, by rw [hft]⟩

theorem implementer_edge {doc : Document} {i t : String}
    (ht : t ∈ interface_implementers doc i) :
    ∃ O : ObjectType, Definition.typeDefinition (.object O) ∈ doc.definitions ∧
      O.name = t ∧ (i, t) ∈ focus_def_edges (.typeDefinition (.object O)) := by
  unfold interface_implementers at ht
  rw [List.mem_dedup, List.mem_filterMap] at ht
  obtain ⟨d, hd, hdt⟩ := ht
  match d with
  | .schemaDefinition q m s => simp at hdt
  | .typeExtension nm => simp at hdt
  | .directiveDefinition nm => simp at hdt
  | .typeDefinition (.scalar sc) => simp at hdt
  | .typeDefinition (.enum e) => simp at hdt
  | .typeDefinition (.interface it) => simp at hdt
  | .typeDefinition (.union u) => simp at hdt
  | .typeDefinition (.inputObject io) => simp at hdt
  | .typeDefinition (.object o) =>
    simp only at hdt
    split at hdt
    · rename_i him
      rw [Option.some_inj] at hdt
      refine ⟨o, hd, hdt, ?_⟩
      simp only [focus_def_edges, List.mem_append, List.mem_map]
      exact Or.inr ⟨i, him, by rw [hdt]⟩
    · simp at hdt

theorem focusRefsOf_edge {doc : Document} {d : Definition} {t : String}
    (hd : d ∈ doc.definitions) (ht : t ∈ focusRefsOf doc d) :
    ∃ n, schema_definition_name d = some n ∧ (n, t) ∈ focusEdges doc := by
  match d with
  | .typeDefinition (.interface i) =>
    rcases List.mem_append.mp (by simpa [focusRefsOf] using ht) with h1 | h1
    · obtain ⟨n, hn, he⟩ := defTypeRefs_edge h1
      exact ⟨n, hn, mem_focusEdges_of_def hd he⟩
    · obtain ⟨O, hO, _, he⟩ := implementer_edge h1
      exact ⟨i.name, rfl, mem_focusEdges_of_def hO he⟩
  | .schemaDefinition q m s => simp [focusRefsOf, defTypeRefs] at ht
  | .typeExtension nm => simp [focusRefsOf, defTypeRefs] at ht
  | .directiveDefinition nm => simp [focusRefsOf, defTypeRefs] at ht
  | .typeDefinition (.scalar sc) => simp [focusRefsOf, defTypeRefs] at ht
  | .typeDefinition (.enum e) => simp [focusRefsOf, defTypeRefs] at ht
  | .typeDefinition (.object o) =>
    obtain ⟨n, hn, he⟩ := defTypeRefs_edge (d := .typeDefinition (.object o)) ht
    exact ⟨n, hn, mem_focusEdges_of_def hd he⟩
  | .typeDefinition (.union u) =>
    obtain ⟨n, hn, he⟩ := defTypeRefs_edge (d := .typeDefinition (.union u)) ht
    exact ⟨n, hn, mem_focusEdges_of_def hd he⟩
  | .typeDefinition (.inputObject io) =>
    obtain ⟨n, hn, he⟩ := defTypeRefs_edge (d := .typeDefinition (.inputObject io)) ht
    exact ⟨n, hn, mem_focusEdges_of_def hd he⟩

/-- C1 (amended): in the reachability closure, every type name referenced by
a retained definition through a field's base return type, a union's member
list, an input object's field types, or — for a retained interface — its
implementer set, has its definitions (when the document defines it) present
in the output; iterating this gives the transitive statement.  The
directions the code does not build edges for (a retained object's implemented
interfaces, and the field-usage closure's return types) are excluded: the
counterexample shows they dangle. -/
theorem focus_no_dangling_references (doc : Document) (roots : List String)
    (d : Definition) (hd : d ∈ focusProcess doc roots) (t : String)
    (ht : t ∈ focusRefsOf doc d) (td : TypeDefinition)
    (htd : Definition.typeDefinition td ∈ doc.definitions)
    (hn : schema_type_definition_name td = t) :
    Definition.typeDefinition td ∈ focusProcess doc roots := by
  obtain ⟨hdoc, n, hname, hused⟩ :=
    (mem_strip_iff doc _ d).mp (mem_of_mem_focusProcess hd)
  obtain ⟨n2, hname2, hedge⟩ := focusRefsOf_edge hdoc ht
  rw [hname] at hname2
  rw [Option.some_inj] at hname2
  subst hname2
  have htu : t ∈ focusUsed doc roots := focusUsed_closed doc roots hedge hused
  exact mem_focusProcess_of htd (by rw [schema_definition_name, hn]) htu

/-- C2 (amended): the implementer direction of interface symmetry holds for
the reachability closure — if an interface definition is retained, every
object definition of the document that lists it in `implements` is retained
too.  The converse direction fails on the code (no object → interface edge is
built); see the counterexample. -/
theorem focus_interface_pulls_implementers (doc : Document) (roots : List String)
    (i : InterfaceType)
    (hi : Definition.typeDefinition (.interface i) ∈ focusProcess doc roots)
    (O : ObjectType)
    (hO : Definition.typeDefinition (.object O) ∈ doc.definitions)
    (him : i.name ∈ O.implements_interfaces) :
    Definition.typeDefinition (.object O) ∈ focusProcess doc roots := by
  obtain ⟨hdoc, n, hname, hused⟩ :=
    (mem_strip_iff doc _ _).mp (mem_of_mem_focusProcess hi)
  have hn : n = i.name := by
    rw [schema_definition_name] at hname
    rw [Option.some_inj] at hname
    exact hname.symm
  subst hn
  have hedge : (i.name, O.name) ∈ focusEdges doc := by
    refine mem_focusEdges_of_def hO ?_
    simp only [focus_def_edges, List.mem_append, List.mem_map]
    exact Or.inr ⟨i.name, him, rfl⟩
  have htu : O.name ∈ focusUsed doc roots := focusUsed_closed doc roots hedge hused
  exact mem_focusProcess_of hO rfl htu

/-- C7 (amended): the reachability closure's output never contains a schema
block or a type extension; every retained entry is a type definition or a
directive definition whose name coincides with a name in the reachable set
(the counterexample shows such a directive is in fact retained, against the
original claim). -/
theorem focus_output_definition_kinds (doc : Document) (roots : List String)
    (d : Definition) (hd : d ∈ focusProcess doc roots) :
    (∃ td, d = Definition.typeDefinition td) ∨
      (∃ nm, d = Definition.directiveDefinition nm ∧ nm ∈ focusUsed doc roots) := by
  obtain ⟨hdoc, n, hname, hused⟩ :=
    (mem_strip_iff doc _ d).mp (mem_of_mem_focusProcess hd)
  match d with
  | .schemaDefinition q m s => simp [schema_definition_name] at hname
  | .typeExtension nm => simp [schema_definition_name] at hname
  | .typeDefinition td => exact Or.inl ⟨td, rfl⟩
  | .directiveDefinition nm =>
    have : nm = n := by
      rw [schema_definition_name] at hname
      rw [Option.some_inj] at hname
      exact hname
    exact Or.inr ⟨nm, rfl, this ▸ hused⟩

/-- C9 (confirmed): focus output is a deterministic function of the schema
document and the *set* of roots — root order and duplicate roots do not
change it — and retained definitions keep their original document order
(the output is a sublist of the input definition list), so no hash-iteration
order can show through. -/
theorem focus_deterministic (doc : Document) (r1 r2 : List String) :
    (r1.toFinset = r2.toFinset → focusProcess doc r1 = focusProcess doc r2) ∧
      (focusProcess doc r1).Sublist doc.definitions := by
  constructor
  · intro h12
    have hinit : ∀ y, y ∈ focusInit doc r1 ↔ y ∈ focusInit doc r2 := by
      intro y
      unfold focusInit
      rw [List.mem_dedup, List.mem_dedup, List.mem_filter, List.mem_filter]
      have hy : y ∈ r1 ↔ y ∈ r2 := by
        rw [← List.mem_toFinset, h12, List.mem_toFinset]
      tauto
    have hnd1 : (focusInit doc r1).Nodup := List.nodup_dedup _
    have hnd2 : (focusInit doc r2).Nodup := List.nodup_dedup _
    have hmem : ∀ x, x ∈ focusUsed doc r1 ↔ x ∈ focusUsed doc r2 := by
      intro x
      rw [focusUsed_eq, focusUsed_eq,
        mem_focusClosure_iff _ _ hnd1 x, mem_focusClosure_iff _ _ hnd2 x]
      exact ⟨reach_congr _ hinit, reach_congr _ (fun y => (hinit y).symm)⟩
    have hnil : focusUsed doc r1 = [] ↔ focusUsed doc r2 = [] := by
      rw [List.eq_nil_iff_forall_not_mem, List.eq_nil_iff_forall_not_mem]
      constructor <;> intro h x hx
      · exact h x ((hmem x).mpr hx)
      · exact h x ((hmem x).mp hx)
    have hempty : (focusUsed doc r1).isEmpty = (focusUsed doc r2).isEmpty := by
      by_cases hc : focusUsed doc r1 = []
      · rw [hc, hnil.mp hc]
      · have hc2 : focusUsed doc r2 ≠ [] := fun hh => hc (hnil.mpr hh)
        have e1 : (focusUsed doc r1).isEmpty = false := by
          rw [← Bool.not_eq_true, List.isEmpty_iff]; exact hc
        have e2 : (focusUsed doc r2).isEmpty = false := by
          rw [← Bool.not_eq_true, List.isEmpty_iff]; exact hc2
        rw [e1, e2]
    show (if (focusUsed doc r1).isEmpty then []
        else strip_unused_types doc (focusUsed doc r1)) =
      (if (focusUsed doc r2).isEmpty then []
        else strip_unused_types doc (focusUsed doc r2))
    rw [hempty]
    split
    · rfl
    · unfold strip_unused_types
      refine List.filter_congr ?_
      intro d _
      cases hn : schema_definition_name d with
      | none => simp [hn]
      | some n =>
        simp only [hn, Option.map_some', Option.getD_some]
        rw [decide_eq_decide]
        exact hmem n
  · show (if (focusUsed doc r1).isEmpty then []
        else strip_unused_types doc (focusUsed doc r1)).Sublist doc.definitions
    split
    · exact List.nil_sublist _
    · exact List.filter_sublist _

/-! ## Properties of the prune operation -/

theorem ufInsertEmpty_isSome {uf : UsedFields} {j k : String}
    (h : (uf k).isSome) : ((ufInsertEmpty uf j) k).isSome := by
  unfold ufInsertEmpty
  by_cases hk : k = j
  · simp [hk]
  · simpa [hk] using h

theorem ufInsertEmpty_self (uf : UsedFields) (j : String) :
    ((ufInsertEmpty uf j) j).isSome := by
  simp [ufInsertEmpty]

theorem ufSet_isSome {uf : UsedFields} {j k : String} {s : List String}
    (h : (uf k).isSome) : ((ufSet uf j s) k).isSome := by
  unfold ufSet
  by_cases hk : k = j
  · simp [hk]
  · simpa [hk] using h

theorem collect_preserves_isSome :
    ∀ (fuel : Nat) (parent : String) (ss : List QSelection)
      (tm : String → Option TypeDefinition) (uf : UsedFields)
      (fm : String → Option FragmentDefinition) (k : String),
      (uf k).isSome → ((collect_used_fields fuel parent ss tm uf fm) k).isSome := by
  intro fuel
  induction fuel with
  | zero => intro parent ss tm uf fm k h; simpa [collect_used_fields] using h
  | succ f ih =>
    intro parent ss tm uf fm k h
    rw [collect_used_fields]
    cases htm : tm parent with
    | none => simpa using h
    | some pd =>
      cases ss with
      | nil => simpa using h
      | cons sel rest =>
        simp only
        refine ih parent rest tm _ fm k ?_
        cases sel with
        | field name subsel =>
          simp only
          cases hfind : (type_fields pd).bind
              (fun fs => fs.find? (fun fld => fld.name == name)) with
          | none => simpa [hfind] using h
          | some sf =>
            simp only [hfind]
            exact ih _ _ tm _ fm k (ufSet_isSome h)
        | fragmentSpread fname =>
          simp only
          cases hfm : fm fname with
          | none => simpa [hfm] using h
          | some frag =>
            simp only [hfm]
            exact ih _ _ tm _ fm k (ufInsertEmpty_isSome h)
        | inlineFragment tc subsel =>
          simp only
          exact ih _ _ tm _ fm k (ufInsertEmpty_isSome h)

theorem prune_op_step_preserves_isSome (fuel : Nat)
    (tm : String → Option TypeDefinition) (fm : String → Option FragmentDefinition)
    (rt : RootTypes) {uf : UsedFields} {k : String} (h : (uf k).isSome)
    (d : QueryDef) : ((prune_op_step fuel tm fm rt uf d) k).isSome := by
  cases d with
  | operation op =>
    exact collect_preserves_isSome fuel _ _ tm _ fm k (ufInsertEmpty_isSome h)
  | fragment f => exact h

theorem prune_fold_preserves_isSome (fuel : Nat)
    (tm : String → Option TypeDefinition) (fm : String → Option FragmentDefinition)
    (rt : RootTypes) (k : String) :
    ∀ (l : List QueryDef) (uf : UsedFields), (uf k).isSome →
      ((l.foldl (prune_op_step fuel tm fm rt) uf) k).isSome := by
  intro l
  induction l with
  | nil => exact fun uf h => h
  | cons d rest ih =>
    intro uf h
    rw [List.foldl_cons]
    exact ih _ (prune_op_step_preserves_isSome fuel tm fm rt h d)

theorem pruneUsedFields_isSome_of_operation (fuel : Nat) (doc : Document)
    (qdoc : QueryDoc) (op : OperationDefinition)
    (hop : QueryDef.operation op ∈ qdoc.definitions) :
    ((pruneUsedFields fuel doc qdoc)
      (operationRoot (detect_root_types doc) op)).isSome := by
  obtain ⟨l1, l2, hsplit⟩ := List.append_of_mem hop
  unfold pruneUsedFields
  rw [hsplit, List.foldl_append, List.foldl_cons]
  refine prune_fold_preserves_isSome fuel _ _ _ _ l2 _ ?_
  show ((prune_op_step fuel _ _ _ _ (QueryDef.operation op)) _).isSome
  unfold prune_op_step
  exact collect_preserves_isSome fuel _ _ _ _ _ _ (ufInsertEmpty_self _ _)

theorem pruneDefs_retains {doc : Document} {uf : UsedFields} {td : TypeDefinition}
    {R : String} (h : (uf R).isSome)
    (htd : Definition.typeDefinition td ∈ doc.definitions)
    (hn : schema_type_definition_name td = R) :
    ∃ td', Definition.typeDefinition td' ∈ pruneDefs doc uf ∧
      schema_type_definition_name td' = R := by
  match td with
  | .object o =>
    have ho : o.name = R := hn
    refine ⟨.object { o with fields := o.fields.filter (keepObjectField uf o) },
      ?_, ho⟩
    refine List.mem_filterMap.mpr ⟨Definition.typeDefinition (.object o), htd, ?_⟩
    simp only
    rw [if_pos]
    rw [ho]
    simp [h]
  | .interface i =>
    have hi : i.name = R := hn
    refine ⟨.interface { i with fields := i.fields.filter (fun f => ((uf i.name).map (fun s => s.contains f.name)).getD false) }, ?_, hi⟩
    refine List.mem_filterMap.mpr ⟨Definition.typeDefinition (.interface i), htd, ?_⟩
    simp only
    rw [if_pos]
    rw [hi]
    simpa using h
  | .scalar sc =>
    refine ⟨.scalar sc, ?_, hn⟩
    refine List.mem_filterMap.mpr ⟨Definition.typeDefinition (.scalar sc), htd, ?_⟩
    simp only
    rw [if_pos]
    show (uf (schema_type_definition_name (.scalar sc))).isSome = true
    rw [hn]
    exact h
  | .union u =>
    refine ⟨.union u, ?_, hn⟩
    refine List.mem_filterMap.mpr ⟨Definition.typeDefinition (.union u), htd, ?_⟩
    simp only
    rw [if_pos]
    show (uf (schema_type_definition_name (.union u))).isSome = true
    rw [hn]
    exact h
  | .enum e =>
    refine ⟨.enum e, ?_, hn⟩
    refine List.mem_filterMap.mpr ⟨Definition.typeDefinition (.enum e), htd, ?_⟩
    simp only
    rw [if_pos]
    show (uf (schema_type_definition_name (.enum e))).isSome = true
    rw [hn]
    exact h
  | .inputObject io =>
    refine ⟨.inputObject io, ?_, hn⟩
    refine List.mem_filterMap.mpr ⟨Definition.typeDefinition (.inputObject io), htd, ?_⟩
    simp only
    rw [if_pos]
    show (uf (schema_type_definition_name (.inputObject io))).isSome = true
    rw [hn]
    exact h

theorem typeMap_eq_none_iff (doc : Document) (R : String) :
    typeMap doc R = none ↔
      ∀ td, Definition.typeDefinition td ∈ doc.definitions →
        schema_type_definition_name td ≠ R := by
  unfold typeMap
  rw [List.find?_eq_none]
  constructor
  · intro h td htd hname
    have hmem : td ∈ (doc.definitions.filterMap
        (fun d => match d with
          | Definition.typeDefinition td => some td
          | _ => none)).reverse := by
      rw [List.mem_reverse, List.mem_filterMap]
      exact ⟨.typeDefinition td, htd, rfl⟩
    have := h td hmem
    simp [hname] at this
  · intro h td hmem
    rw [List.mem_reverse, List.mem_filterMap] at hmem
    obtain ⟨d, hd, hdt⟩ := hmem
    match d with
    | .schemaDefinition q m s => simp at hdt
    | .typeExtension nm => simp at hdt
    | .directiveDefinition nm => simp at hdt
    | .typeDefinition td0 =>
      simp only [Option.some_inj] at hdt
      subst hdt
      simpa using h td0 hd

theorem pruneDefs_typedef_src {doc : Document} {uf : UsedFields}
    {td' : TypeDefinition}
    (h : Definition.typeDefinition td' ∈ pruneDefs doc uf) :
    ∃ td, Definition.typeDefinition td ∈ doc.definitions ∧
      schema_type_definition_name td = schema_type_definition_name td' := by
  obtain ⟨d, hd, hfd⟩ := List.mem_filterMap.mp h
  match d with
  | .schemaDefinition q m s => simp at hfd
  | .typeExtension nm => simp at hfd
  | .directiveDefinition nm => simp at hfd
  | .typeDefinition (.object o) =>
    simp only at hfd
    split at hfd
    · rw [Option.some_inj] at hfd
      injection hfd with h2
      refine ⟨.object o, hd, ?_⟩
      rw [← h2]
      rfl
    · simp at hfd
  | .typeDefinition (.interface i) =>
    simp only at hfd
    split at hfd
    · rw [Option.some_inj] at hfd
      injection hfd with h2
      refine ⟨.interface i, hd, ?_⟩
      rw [← h2]
      rfl
    · simp at hfd
  | .typeDefinition (.scalar sc) =>
    simp only at hfd
    split at hfd
    · rw [Option.some_inj] at hfd
      injection hfd with h2
      exact ⟨.scalar sc, hd, by rw [← h2]⟩
    · simp at hfd
  | .typeDefinition (.union u) =>
    simp only at hfd
    split at hfd
    · rw [Option.some_inj] at hfd
      injection hfd with h2
      exact ⟨.union u, hd, by rw [← h2]⟩
    · simp at hfd
  | .typeDefinition (.enum e) =>
    simp only at hfd
    split at hfd
    · rw [Option.some_inj] at hfd
      injection hfd with h2
      exact ⟨.enum e, hd, by rw [← h2]⟩
    · simp at hfd
  | .typeDefinition (.inputObject io) =>
    simp only at hfd
    split at hfd
    · rw [Option.some_inj] at hfd
      injection hfd with h2
      exact ⟨.inputObject io, hd, by rw [← h2]⟩
    · simp at hfd

theorem focusStep_nil (es : List (String × String)) : focusStep es [] = [] := by
  induction es with
  | nil => rfl
  | cons e rest ih =>
    rw [focusStep_cons, if_neg (by simp)]
    exact ih

theorem focusIter_nil (es : List (String × String)) (n : Nat) :
    focusIter es n [] = [] := by
  induction n with
  | zero => rfl
  | succ n ih =>
    show focusStep es (focusIter es n []) = []
    rw [ih, focusStep_nil]

/-- C10 (confirmed): every operation's resolved root type name is a key of
the final used-fields map — the insertion happens before the selection walk
and no later step removes a key — and therefore, whenever the schema defines
a type of that name, a definition with that name (its fields possibly
filtered to nothing) is present in the prune output. -/
theorem prune_retains_operation_roots (fuel : Nat) (doc : Document)
    (qdoc : QueryDoc) (op : OperationDefinition)
    (hop : QueryDef.operation op ∈ qdoc.definitions) :
    ((pruneUsedFields fuel doc qdoc)
        (operationRoot (detect_root_types doc) op)).isSome ∧
      ∀ td, Definition.typeDefinition td ∈ doc.definitions →
        schema_type_definition_name td = operationRoot (detect_root_types doc) op →
        ∃ td', Definition.typeDefinition td' ∈ pruneProcess fuel doc qdoc ∧
          schema_type_definition_name td' =
            operationRoot (detect_root_types doc) op := by
  have h1 := pruneUsedFields_isSome_of_operation fuel doc qdoc op hop
  exact ⟨h1, fun td htd hn => pruneDefs_retains h1 htd hn⟩

/-- C8 (amended): unresolvable roots do not error and contribute nothing
positive — dropping the roots without a graph node from any root list (also
one that mixes resolvable and unresolvable roots) leaves the focus output
unchanged, so each unresolvable root contributes nothing; a focus run whose
roots all lack a graph node returns the explicitly empty output; a
field-usage walk from a root type with no schema definition leaves the
used-fields map untouched; and no type definition named by that root can
appear in the prune output (none exists).  What the original claim missed:
the walk does insert the unresolved root name itself as a used-fields key
with an empty set before giving up, so an object that lists that name in
`implements` is still retained; see the counterexample. -/
theorem unresolvable_roots_yield_empty_contribution :
    (∀ (doc : Document) (roots : List String),
        focusProcess doc (roots.filter (fun r => decide (r ∈ focusNodes doc))) =
          focusProcess doc roots) ∧
      (∀ (doc : Document) (roots : List String),
        (∀ r ∈ roots, r ∉ focusNodes doc) → focusProcess doc roots = []) ∧
      (∀ (fuel : Nat) (R : String) (ss : List QSelection)
          (tm : String → Option TypeDefinition) (uf : UsedFields)
          (fm : String → Option FragmentDefinition),
          tm R = none → collect_used_fields fuel R ss tm uf fm = uf) ∧
      (∀ (fuel : Nat) (doc : Document) (qdoc : QueryDoc) (R : String)
          (td' : TypeDefinition), typeMap doc R = none →
          Definition.typeDefinition td' ∈ pruneProcess fuel doc qdoc →
          schema_type_definition_name td' ≠ R) := by
  refine ⟨?_, ?_, ?_, ?_⟩
  · intro doc roots
    have hinit : focusInit doc
        (roots.filter (fun r => decide (r ∈ focusNodes doc))) =
        focusInit doc roots := by
      unfold focusInit
      rw [List.filter_filter]
      congr 1
      refine List.filter_congr ?_
      intro a _
      simp
    have hused : focusUsed doc
        (roots.filter (fun r => decide (r ∈ focusNodes doc))) =
        focusUsed doc roots := by
      rw [focusUsed_eq, focusUsed_eq, hinit]
    show (if (focusUsed doc
          (roots.filter (fun r => decide (r ∈ focusNodes doc)))).isEmpty then []
        else strip_unused_types doc (focusUsed doc
          (roots.filter (fun r => decide (r ∈ focusNodes doc))))) =
      (if (focusUsed doc roots).isEmpty then []
        else strip_unused_types doc (focusUsed doc roots))
    rw [hused]
  · intro doc roots h
    have hinit : focusInit doc roots = [] := by
      unfold focusInit
      rw [List.dedup_eq_nil]
      rw [List.filter_eq_nil_iff]
      intro r hr
      simpa using h r hr
    have hused : focusUsed doc roots = [] := by
      rw [focusUsed_eq, hinit]
      unfold focusClosure
      exact focusIter_nil _ _
    show (if (focusUsed doc roots).isEmpty then []
        else strip_unused_types doc (focusUsed doc roots)) = []
    rw [hused]
    rfl
  · intro fuel R ss tm uf fm h
    cases fuel with
    | zero => rfl
    | succ f =>
      rw [collect_used_fields, h]
  · intro fuel doc qdoc R td' hmap hmem hname
    obtain ⟨td, htd, heq⟩ := pruneDefs_typedef_src hmem
    exact (typeMap_eq_none_iff doc R).mp hmap td htd (by rw [heq, hname])

/-! ## Properties of the traversal engine's visited set -/

/-- The invariant a walker call preserves, relative to the visited set it
was given: the set only grows (up to the path-stack removal of the name the
call itself inserted), stays duplicate-free, and the definitions descended
into during the call were not yet visited when it started, end up visited,
and are pairwise distinct. -/
def WInv (vin : List String) (p : List String × List WEvent) : Prop :=
  vin ⊆ p.1 ∧ p.1.Nodup ∧ (descendsOf p.2).Nodup ∧
    ∀ n ∈ descendsOf p.2, n ∉ vin ∧ n ∈ p.1

theorem winv_id (v : List String) (hv : v.Nodup) : WInv v (v, []) :=
  ⟨fun _ h => h, hv, by simp [descendsOf], by simp [descendsOf]⟩

theorem descendsOf_append (t1 t2 : List WEvent) :
    descendsOf (t1 ++ t2) = descendsOf t1 ++ descendsOf t2 :=
  List.filterMap_append t1 t2 _

theorem descendsOf_ins (a : String) (t : List WEvent) :
    descendsOf (.ins a :: t) = descendsOf t := rfl

theorem descendsOf_rem (a : String) (t : List WEvent) :
    descendsOf (.rem a :: t) = descendsOf t := rfl

theorem descendsOf_descend (a : String) (t : List WEvent) :
    descendsOf (.descend a :: t) = a :: descendsOf t := rfl

theorem winv_comp {v1 : List String} {p q : List String × List WEvent}
    (h1 : WInv v1 p) (h2 : WInv p.1 q) : WInv v1 (q.1, p.2 ++ q.2) := by
  obtain ⟨m1, nd1, dn1, hd1⟩ := h1
  obtain ⟨m2, nd2, dn2, hd2⟩ := h2
  refine ⟨fun x hx => m2 (m1 hx), nd2, ?_, ?_⟩
  · rw [descendsOf_append, List.nodup_append]
    exact ⟨dn1, dn2, fun n hn1 hn2 => (hd2 n hn2).1 ((hd1 n hn1).2)⟩
  · intro n hn
    rw [descendsOf_append, List.mem_append] at hn
    rcases hn with hn | hn
    · exact ⟨(hd1 n hn).1, m2 (hd1 n hn).2⟩
    · exact ⟨fun hv1 => (hd2 n hn).1 (m1 hv1), (hd2 n hn).2⟩

theorem winv_wtbn_shape {v : List String} {n : String}
    {p : List String × List WEvent} (ho : n ∉ v) (hp : WInv (n :: v) p) :
    WInv v (p.1.erase n, .ins n :: p.2 ++ [.rem n]) := by
  obtain ⟨m1, nd1, dn1, hd1⟩ := hp
  have hdesc : descendsOf (WEvent.ins n :: p.2 ++ [WEvent.rem n]) = descendsOf p.2 := by
    rw [List.cons_append, descendsOf_ins, descendsOf_append]
    simp [descendsOf]
  refine ⟨?_, List.Nodup.erase n nd1, ?_, ?_⟩
  · intro x hx
    have hxn : x ≠ n := fun hxe => ho (hxe ▸ hx)
    exact (List.mem_erase_of_ne hxn).mpr (m1 (List.mem_cons_of_mem _ hx))
  · rw [hdesc]
    exact dn1
  · intro x hx
    rw [hdesc] at hx
    have h1 := hd1 x hx
    have hxn : x ≠ n := fun hxe => h1.1 (hxe ▸ List.mem_cons_self n v)
    exact ⟨fun hxv => h1.1 (List.mem_cons_of_mem _ hxv),
      (List.mem_erase_of_ne hxn).mpr h1.2⟩

theorem walk_type_by_name_succ_of_not_mem (f : Nat)
    (tm : String → Option TypeDefinition) (im : String → List String)
    (n : String) (v : List String) (ho : n ∉ v) :
    walk_type_by_name (f + 1) tm im n v =
      ((match tm n with
          | some ty => walk_type_definition f tm im ty (n :: v)
          | none => (n :: v, ([] : List WEvent))).1.erase n,
        .ins n :: (match tm n with
          | some ty => walk_type_definition f tm im ty (n :: v)
          | none => (n :: v, ([] : List WEvent))).2 ++ [.rem n]) := by
  rw [walk_type_by_name]
  rw [if_neg ho]

theorem walk_inv (fuel : Nat) (tm : String → Option TypeDefinition)
    (im : String → List String) :
    (∀ ty v, v.Nodup → WInv v (walk_type_definition fuel tm im ty v)) ∧
    (∀ fs v, v.Nodup → WInv v (walk_field_list fuel tm im fs v)) ∧
    (∀ fs v, v.Nodup → WInv v (walk_input_list fuel tm im fs v)) ∧
    (∀ ns v, v.Nodup → WInv v (walk_name_list fuel tm im ns v)) ∧
    (∀ n v, v.Nodup → WInv v (walk_type_by_name fuel tm im n v)) := by
  induction fuel with
  | zero =>
    exact ⟨fun ty v hv => winv_id v hv, fun fs v hv => winv_id v hv,
      fun fs v hv => winv_id v hv, fun ns v hv => winv_id v hv,
      fun n v hv => winv_id v hv⟩
  | succ f ih =>
    obtain ⟨ihT, ihF, ihI, ihN, ihB⟩ := ih
    refine ⟨?_, ?_, ?_, ?_, ?_⟩
    · intro ty v hv
      match ty with
      | .object o =>
        show WInv v (if o.name ∈ v then (v, []) else
          ((walk_field_list f tm im o.fields (o.name :: v)).1,
            .ins o.name :: .descend o.name ::
              (walk_field_list f tm im o.fields (o.name :: v)).2))
        by_cases ho : o.name ∈ v
        · rw [if_pos ho]; exact winv_id v hv
        · rw [if_neg ho]
          have hv1 : (o.name :: v).Nodup := List.nodup_cons.mpr ⟨ho, hv⟩
          obtain ⟨m1, nd1, dn1, hd1⟩ := ihF o.fields (o.name :: v) hv1
          refine ⟨fun x hx => m1 (List.mem_cons_of_mem _ hx), nd1, ?_, ?_⟩
          · rw [descendsOf_ins, descendsOf_descend]
            refine List.nodup_cons.mpr ⟨fun hmem => ?_, dn1⟩
            exact (hd1 _ hmem).1 (List.mem_cons_self _ _)
          · intro n hn
            rw [descendsOf_ins, descendsOf_descend] at hn
            rcases List.mem_cons.mp hn with hn | hn
            · subst hn
              exact ⟨ho, m1 (List.mem_cons_self _ _)⟩
            · exact ⟨fun hvn => (hd1 n hn).1 (List.mem_cons_of_mem _ hvn),
                (hd1 n hn).2⟩
      | .inputObject io =>
        show WInv v (if io.name ∈ v then (v, []) else
          ((walk_input_list f tm im io.fields (io.name :: v)).1,
            .ins io.name :: .descend io.name ::
              (walk_input_list f tm im io.fields (io.name :: v)).2))
        by_cases ho : io.name ∈ v
        · rw [if_pos ho]; exact winv_id v hv
        · rw [if_neg ho]
          have hv1 : (io.name :: v).Nodup := List.nodup_cons.mpr ⟨ho, hv⟩
          obtain ⟨m1, nd1, dn1, hd1⟩ := ihI io.fields (io.name :: v) hv1
          refine ⟨fun x hx => m1 (List.mem_cons_of_mem _ hx), nd1, ?_, ?_⟩
          · rw [descendsOf_ins, descendsOf_descend]
            refine List.nodup_cons.mpr ⟨fun hmem => ?_, dn1⟩
            exact (hd1 _ hmem).1 (List.mem_cons_self _ _)
          · intro n hn
            rw [descendsOf_ins, descendsOf_descend] at hn
            rcases List.mem_cons.mp hn with hn | hn
            · subst hn
              exact ⟨ho, m1 (List.mem_cons_self _ _)⟩
            · exact ⟨fun hvn => (hd1 n hn).1 (List.mem_cons_of_mem _ hvn),
                (hd1 n hn).2⟩
      | .interface i =>
        show WInv v ((walk_name_list f tm im (im i.name)
            (walk_field_list f tm im i.fields v).1).1,
          (walk_field_list f tm im i.fields v).2 ++
            (walk_name_list f tm im (im i.name)
              (walk_field_list f tm im i.fields v).1).2)
        have h1 := ihF i.fields v hv
        have h2 := ihN (im i.name) _ h1.2.1
        exact winv_comp h1 h2
      | .enum e =>
        show WInv v (if e.name ∈ v then (v, []) else
          (e.name :: v, [.ins e.name, .descend e.name]))
        by_cases ho : e.name ∈ v
        · rw [if_pos ho]; exact winv_id v hv
        · rw [if_neg ho]
          refine ⟨fun x hx => List.mem_cons_of_mem _ hx,
            List.nodup_cons.mpr ⟨ho, hv⟩, by simp [descendsOf], ?_⟩
          intro n hn
          rw [descendsOf_ins, descendsOf_descend] at hn
          rcases List.mem_cons.mp hn with hn | hn
          · subst hn
            exact ⟨ho, List.mem_cons_self _ _⟩
          · simp [descendsOf] at hn
      | .union u => exact ihN u.types v hv
      | .scalar sc => exact winv_id v hv
    · intro fs v hv
      match fs with
      | [] => exact winv_id v hv
      | fld :: rest =>
        show WInv v ((walk_field_list f tm im rest
            (walk_type_by_name f tm im (named_type fld.field_type) v).1).1,
          (walk_type_by_name f tm im (named_type fld.field_type) v).2 ++
            (walk_field_list f tm im rest
              (walk_type_by_name f tm im (named_type fld.field_type) v).1).2)
        have h1 := ihB (named_type fld.field_type) v hv
        have h2 := ihF rest _ h1.2.1
        exact winv_comp h1 h2
    · intro fs v hv
      match fs with
      | [] => exact winv_id v hv
      | fld :: rest =>
        show WInv v ((walk_input_list f tm im rest
            (walk_type_by_name f tm im (named_type fld.value_type) v).1).1,
          (walk_type_by_name f tm im (named_type fld.value_type) v).2 ++
            (walk_input_list f tm im rest
              (walk_type_by_name f tm im (named_type fld.value_type) v).1).2)
        have h1 := ihB (named_type fld.value_type) v hv
        have h2 := ihI rest _ h1.2.1
        exact winv_comp h1 h2
    · intro ns v hv
      match ns with
      | [] => exact winv_id v hv
      | n :: rest =>
        show WInv v ((walk_name_list f tm im rest
            (walk_type_by_name f tm im n v).1).1,
          (walk_type_by_name f tm im n v).2 ++
            (walk_name_list f tm im rest (walk_type_by_name f tm im n v).1).2)
        have h1 := ihB n v hv
        have h2 := ihN rest _ h1.2.1
        exact winv_comp h1 h2
    · intro n v hv
      by_cases ho : n ∈ v
      · have : walk_type_by_name (f + 1) tm im n v = (v, []) := by
          rw [walk_type_by_name]
          rw [if_pos ho]
        rw [this]
        exact winv_id v hv
      · rw [walk_type_by_name_succ_of_not_mem f tm im n v ho]
        have hv1 : (n :: v).Nodup := List.nodup_cons.mpr ⟨ho, hv⟩
        cases htm : tm n with
        | some ty => exact winv_wtbn_shape ho (ihT ty (n :: v) hv1)
        | none => exact winv_wtbn_shape ho (winv_id (n :: v) hv1)

/-- The invariant maintained across `walk_schema`'s definition loop. -/
def WAccInv (p : List String × List WEvent) : Prop :=
  p.1.Nodup ∧ (descendsOf p.2).Nodup ∧ ∀ n ∈ descendsOf p.2, n ∈ p.1

theorem walk_schema_step_typedef (fuel : Nat)
    (tm : String → Option TypeDefinition) (im : String → List String)
    (acc : List String × List WEvent) (ty : TypeDefinition) :
    walk_schema_step fuel tm im acc (.typeDefinition ty) =
      ((walk_type_definition fuel tm im ty acc.1).1,
        acc.2 ++ (walk_type_definition fuel tm im ty acc.1).2) := rfl

theorem walk_schema_step_inv (fuel : Nat) (tm : String → Option TypeDefinition)
    (im : String → List String) {acc : List String × List WEvent}
    (h : WAccInv acc) (d : Definition) :
    WAccInv (walk_schema_step fuel tm im acc d) := by
  obtain ⟨nd, dn, hd⟩ := h
  match d with
  | .schemaDefinition q m s => exact ⟨nd, dn, hd⟩
  | .typeExtension nm => exact ⟨nd, dn, hd⟩
  | .directiveDefinition nm => exact ⟨nd, dn, hd⟩
  | .typeDefinition ty =>
    rw [walk_schema_step_typedef]
    obtain ⟨m1, nd1, dn1, hd1⟩ := (walk_inv fuel tm im).1 ty acc.1 nd
    refine ⟨nd1, ?_, ?_⟩
    · show (descendsOf (acc.2 ++ (walk_type_definition fuel tm im ty acc.1).2)).Nodup
      rw [descendsOf_append, List.nodup_append]
      exact ⟨dn, dn1, fun n hn1 hn2 => (hd1 n hn2).1 (hd n hn1)⟩
    · intro n hn
      rw [show (((walk_type_definition fuel tm im ty acc.1).1, acc.2 ++ (walk_type_definition fuel tm im ty acc.1).2) : List String × List WEvent).2 = acc.2 ++ (walk_type_definition fuel tm im ty acc.1).2 from rfl, descendsOf_append, List.mem_append] at hn
      rcases hn with hn | hn
      · exact m1 (hd n hn)
      · exact (hd1 n hn).2

theorem walk_schema_fold_inv (fuel : Nat) (tm : String → Option TypeDefinition)
    (im : String → List String) :
    ∀ (l : List Definition) (acc : List String × List WEvent), WAccInv acc →
      WAccInv (l.foldl (walk_schema_step fuel tm im) acc) := by
  intro l
  induction l with
  | nil => exact fun acc h => h
  | cons d rest ih =>
    intro acc h
    rw [List.foldl_cons]
    exact ih _ (walk_schema_step_inv fuel tm im h d)

/-- C6 (amended): the visited set is not insert-once — `walk_type_by_name`
removes the name it inserted when the call returns (see the counterexample) —
but the terminal markings made by `walk_type_definition` survive, so each
Enum, Scalar, Object and InputObject definition is still descended into at
most once per walk (scalars are never descended into at all). -/
theorem walker_descends_at_most_once (fuel : Nat) (doc : Document) (n : String) :
    ((descendsOf (walk_schema fuel doc).2).count n) ≤ 1 := by
  have h := walk_schema_fold_inv fuel (typeMap doc) (interface_implementers doc)
    doc.definitions ([], [])
    ⟨List.nodup_nil, by simp [descendsOf], by simp [descendsOf]⟩
  exact List.nodup_iff_count_le_one.mp h.2.1 n

/-! ## Concrete documents for the counterexamples and witnesses -/

/-- Shorthand for a bare named type reference. -/
def nref (s : String) : GqlType := .namedType s

/-- Schema with two root fields: Query has user: User and name: String, and
User has id: ID. -/
def twoOpSchema : Document := ⟨[
  .typeDefinition (.object ⟨"Query", [],
    [⟨"user", nref "User", []⟩, ⟨"name", nref "String", []⟩]⟩),
  .typeDefinition (.object ⟨"User", [], [⟨"id", nref "ID", []⟩]⟩)]⟩

/-- Operation A: query selecting user with subfield id. -/
def opSelUser : QueryDef := .operation (.query [.field "user" [.field "id" []]])

/-- Operation B: query selecting the scalar field name. -/
def opSelName : QueryDef := .operation (.query [.field "name" []])

/-- Query document with only operation A. -/
def oneOpQuery : QueryDoc := ⟨[opSelUser]⟩

/-- Query document with operations A and B — both resolve to root Query. -/
def twoOpQuery : QueryDoc := ⟨[opSelUser, opSelName]⟩

/-- Schema whose Query returns an enum: Query has s: Status, and Status is
an enum definition. -/
def enumSchema : Document := ⟨[
  .typeDefinition (.object ⟨"Query", [], [⟨"s", nref "Status", []⟩]⟩),
  .typeDefinition (.enum ⟨"Status", ["A"]⟩)]⟩

/-- Query selecting the enum-returning field s (a leaf selection — valid
GraphQL needs no sub-selection on an enum field). -/
def enumQuery : QueryDoc := ⟨[.operation (.query [.field "s" []])]⟩

/-- Schema where User implements Person: Query has user: User, Person is an
interface, User implements Person. -/
def ifaceSchema : Document := ⟨[
  .typeDefinition (.object ⟨"Query", [], [⟨"user", nref "User", []⟩]⟩),
  .typeDefinition (.interface ⟨"Person", [], [⟨"name", nref "String", []⟩]⟩),
  .typeDefinition (.object ⟨"User", ["Person"], [⟨"id", nref "ID", []⟩]⟩)]⟩

/-- Schema with a field argument of input-object type: Query has
user(input: UserInput): User. -/
def argSchema : Document := ⟨[
  .typeDefinition (.object ⟨"Query", [],
    [⟨"user", nref "User", [⟨"input", nref "UserInput"⟩]⟩]⟩),
  .typeDefinition (.inputObject ⟨"UserInput", [⟨"name", nref "String"⟩]⟩),
  .typeDefinition (.object ⟨"User", [], [⟨"id", .nonNullType (nref "ID"), []⟩]⟩)]⟩

/-- Query selecting user (the declared argument's input type is collected
from the schema regardless of whether the query passes the argument). -/
def argQuery : QueryDoc := ⟨[.operation (.query [.field "user" [.field "id" []]])]⟩

/-- Schema with a directive definition named like a type: type User plus
directive @User (directive names live in their own namespace in GraphQL, so
this is a legal document). -/
def dirSchema : Document := ⟨[
  .typeDefinition (.object ⟨"User", [], [⟨"id", nref "ID", []⟩]⟩),
  .directiveDefinition "User"]⟩

/-- Schema whose schema block names a nonexistent query root type Ghost,
with an object O that (illegally but parseably) implements Ghost. -/
def ghostSchema : Document := ⟨[
  .schemaDefinition (some "Ghost") none none,
  .typeDefinition (.object ⟨"O", ["Ghost"], [⟨"a", nref "ID", []⟩]⟩)]⟩

/-- A query whose selection matches nothing. -/
def ghostQuery : QueryDoc := ⟨[.operation (.query [.field "whatever" []])]⟩

/-! ## Counterexamples and code-bug evaluations -/

/-- C1 (counterexample): the claim fails on the field-usage closure — the
output retains Query with its field s of return type Status, the document
defines Status, yet no definition named Status appears in the output (the
closure only keys types whose own fields are selected, and an enum leaf
selection never does that). -/
theorem prune_dangling_enum_reference :
    Definition.typeDefinition (.object ⟨"Query", [], [⟨"s", nref "Status", []⟩]⟩) ∈
        pruneProcess 50 enumSchema enumQuery ∧
      Definition.typeDefinition (.enum ⟨"Status", ["A"]⟩) ∈ enumSchema.definitions ∧
      ∀ d ∈ pruneProcess 50 enumSchema enumQuery,
        schema_definition_name d ≠ some "Status" := by decide

/-- C2 (counterexample): the converse direction of interface symmetry fails —
focused on root Query, the output retains User, which declares implements
Person, and the document defines interface Person, yet no definition named
Person is in the output: the graph has interface → implementer edges only. -/
theorem focus_object_does_not_pull_interfaces :
    Definition.typeDefinition (.object ⟨"User", ["Person"], [⟨"id", nref "ID", []⟩]⟩) ∈
        focusProcess ifaceSchema ["Query"] ∧
      Definition.typeDefinition (.interface ⟨"Person", [], [⟨"name", nref "String", []⟩]⟩) ∈
        ifaceSchema.definitions ∧
      ∀ d ∈ focusProcess ifaceSchema ["Query"],
        schema_definition_name d ≠ some "Person" := by decide

/-- C3 (code bug evaluated): the matched field's declared argument type name
UserInput is inserted into Query's used-*field-name* set instead of being
keyed in the used-fields map, so the InputObject definition is dropped from
the output, leaving the retained argument reference dangling. -/
theorem prune_argument_input_type_dropped :
    "UserInput" ∈ ufGet (pruneUsedFields 50 argSchema argQuery) "Query" ∧
      (pruneUsedFields 50 argSchema argQuery) "UserInput" = none ∧
      ∀ d ∈ pruneProcess 50 argSchema argQuery,
        schema_definition_name d ≠ some "UserInput" := by decide

/-- C4 (code bug evaluated): after processing operation A alone, the pair
(Query, user) is recorded; processing operation B (same root) re-inserts
Query with a fresh empty set, so the final map no longer contains user and
the output Query keeps only the field name. -/
theorem prune_operation_reset_discards_fields :
    "user" ∈ ufGet (pruneUsedFields 50 twoOpSchema oneOpQuery) "Query" ∧
      "user" ∉ ufGet (pruneUsedFields 50 twoOpSchema twoOpQuery) "Query" ∧
      Definition.typeDefinition (.object ⟨"Query", [], [⟨"name", nref "String", []⟩]⟩) ∈
        pruneProcess 50 twoOpSchema twoOpQuery := by decide

/-- C5 (code bug evaluated): the field-usage closure is not idempotent —
running the two-operation query's output schema back through the same query
drops the User definition that the first run retained, because the first
run's output no longer lets operation A's user selection match. -/
theorem prune_not_idempotent :
    pruneProcess 50 ⟨pruneProcess 50 twoOpSchema twoOpQuery⟩ twoOpQuery ≠
      pruneProcess 50 twoOpSchema twoOpQuery := by decide

/-- C6 (counterexample): during a single walk the engine inserts the name
User into the visited set (inside walk_type_by_name) and removes it again
before the walk completes — the marking is not permanent. -/
theorem walker_removes_inserted_name :
    WEvent.ins "User" ∈ (walk_schema 50 twoOpSchema).2 ∧
      WEvent.rem "User" ∈ (walk_schema 50 twoOpSchema).2 := by decide

/-- C7 (counterexample): a directive definition sharing the name of a
reachable type is retained by the focus output filter, because
schema_definition_name reports a directive's name and the filter only tests
name membership. -/
theorem focus_retains_name_colliding_directive :
    Definition.directiveDefinition "User" ∈ focusProcess dirSchema ["User"] := by decide

/-- C8 (counterexample): with the schema block's query root naming the
nonexistent type Ghost, the walk contributes no used fields, yet the object
O that lists Ghost in implements is retained (with an emptied field list) —
the unresolvable root's contribution is not empty as claimed. -/
theorem ghost_root_retains_implementing_object :
    typeMap ghostSchema "Ghost" = none ∧
      Definition.typeDefinition (.object ⟨"O", ["Ghost"], []⟩) ∈
        pruneProcess 50 ghostSchema ghostQuery := by decide

/-! ## Witnesses -/

/-- Witness for C1's amended theorem: at the interface schema focused on
Query, the retained Query definition references User, and the User
definition is indeed in the output. -/
theorem focus_no_dangling_references_witness :
    Definition.typeDefinition (.object ⟨"User", ["Person"], [⟨"id", nref "ID", []⟩]⟩) ∈
      focusProcess ifaceSchema ["Query"] :=
  focus_no_dangling_references ifaceSchema ["Query"]
    (.typeDefinition (.object ⟨"Query", [], [⟨"user", nref "User", []⟩]⟩))
    (by decide) "User" (by decide)
    (.object ⟨"User", ["Person"], [⟨"id", nref "ID", []⟩]⟩) (by decide) rfl

/-- Witness for C2's amended theorem: focusing the interface schema on
Person retains the Person interface, and its implementer User is then also
in the output. -/
theorem focus_interface_pulls_implementers_witness :
    Definition.typeDefinition (.object ⟨"User", ["Person"], [⟨"id", nref "ID", []⟩]⟩) ∈
      focusProcess ifaceSchema ["Person"] :=
  focus_interface_pulls_implementers ifaceSchema ["Person"]
    ⟨"Person", [], [⟨"name", nref "String", []⟩]⟩ (by decide)
    ⟨"User", ["Person"], [⟨"id", nref "ID", []⟩]⟩ (by decide) (by decide)

/-- Witness for C7's amended theorem, applied to the retained directive of
the directive-collision schema. -/
theorem focus_output_definition_kinds_witness :
    (∃ td, Definition.directiveDefinition "User" = Definition.typeDefinition td) ∨
      (∃ nm, Definition.directiveDefinition "User" = Definition.directiveDefinition nm ∧
        nm ∈ focusUsed dirSchema ["User"]) :=
  focus_output_definition_kinds dirSchema ["User"] _ (by decide)

/-- Witness for C9: permuting and duplicating the root list leaves the focus
output unchanged, and the output definitions appear in document order. -/
theorem focus_deterministic_witness :
    focusProcess ifaceSchema ["User", "Person", "User"] =
        focusProcess ifaceSchema ["Person", "User"] ∧
      (focusProcess ifaceSchema ["User", "Person", "User"]).Sublist
        ifaceSchema.definitions :=
  ⟨(focus_deterministic ifaceSchema ["User", "Person", "User"] ["Person", "User"]).1
      (by decide),
    (focus_deterministic ifaceSchema ["User", "Person", "User"] ["Person", "User"]).2⟩

/-- Witness for C10: the single-operation query keys root Query in the final
map, and the Query definition survives into the output. -/
theorem prune_retains_operation_roots_witness :
    ((pruneUsedFields 50 twoOpSchema oneOpQuery) "Query").isSome ∧
      ∀ td, Definition.typeDefinition td ∈ twoOpSchema.definitions →
        schema_type_definition_name td = "Query" →
        ∃ td', Definition.typeDefinition td' ∈ pruneProcess 50 twoOpSchema oneOpQuery ∧
          schema_type_definition_name td' = "Query" :=
  prune_retains_operation_roots 50 twoOpSchema oneOpQuery
    (.query [.field "user" [.field "id" []]]) (List.Mem.head [])

/-- Witness for C8's amended theorem: in a root list mixing the resolvable
User with the unresolvable Nope, dropping Nope leaves the focus output
unchanged; a root list whose only entry has no node yields the empty focus
output; a collect walk from the undefined root Ghost leaves the map
untouched; and the object retained through the Ghost implements entry is not
itself named Ghost. -/
theorem unresolvable_roots_witness :
    focusProcess twoOpSchema ["User"] = focusProcess twoOpSchema ["User", "Nope"] ∧
      focusProcess twoOpSchema ["Nope"] = [] ∧
      collect_used_fields 5 "Ghost" [.field "x" []] (typeMap ghostSchema)
          (fun _ => none) (fun _ => none) = (fun _ => none) ∧
      schema_type_definition_name (.object ⟨"O", ["Ghost"], []⟩) ≠ "Ghost" := by
  refine ⟨?_, ?_, ?_, ?_⟩
  · have h := unresolvable_roots_yield_empty_contribution.1 twoOpSchema
      ["User", "Nope"]
    have hf : ["User", "Nope"].filter
        (fun r => decide (r ∈ focusNodes twoOpSchema)) = ["User"] := by decide
    rw [hf] at h
    exact h
  · exact unresolvable_roots_yield_empty_contribution.2.1 twoOpSchema ["Nope"]
      (by decide)
  · exact unresolvable_roots_yield_empty_contribution.2.2.1 5 "Ghost"
      [.field "x" []] (typeMap ghostSchema) (fun _ => none) (fun _ => none)
      (by decide)
  · exact unresolvable_roots_yield_empty_contribution.2.2.2 50 ghostSchema
      ghostQuery "Ghost" (.object ⟨"O", ["Ghost"], []⟩) (by decide) (by decide)

end Gql
